import Mathlib

/-!
Verification development for the money-dollar browser extension content scripts.

The repository contains two variants of the content script:
* the refined variant (src/unnamed/part_000) whose pattern table consults a
  trailing-context test (hasMeaningfulTextAfter) before appending a currency word;
* the src/content.js variant, which never appends a currency word and instead
  normalizes decimals via padHundredths, and which gates all processing on a
  persisted enabled flag read by checkState.

Strings are modelled as List Char.  Each regular expression of the pattern
table is hand-compiled into an anchored matcher with explicit backtracking:
quantifiers produce candidate (consumed, rest) splits in the priority order of
a backtracking regex engine (greedy: longest first), and the continuation is
tried on each candidate in order.  The global replace of String.replace with
the g flag is modelled by a left-to-right scan that substitutes each match and
resumes after it.
-/

namespace MoneyDollar

/-- The digit class of the regex escape backslash-d, [0-9]. -/
def isDigitC (c : Char) : Bool := 48 ≤ c.toNat && c.toNat ≤ 57

/-- The word-character class backslash-w used by word boundaries: [A-Za-z0-9_]. -/
def isWordChar (c : Char) : Bool :=
  isDigitC c || (65 ≤ c.toNat && c.toNat ≤ 90) || (97 ≤ c.toNat && c.toNat ≤ 122) || c.toNat == 95

/-- The JavaScript whitespace class backslash-s (also the character set removed
by String.trim): space, tab, LF, VT, FF, CR, NBSP, and the Unicode space
separators, line/paragraph separators and BOM. -/
def isJSSpace (c : Char) : Bool :=
  let n := c.toNat
  n == 32 || (9 ≤ n && n ≤ 13) || n == 160 || n == 0x1680 ||
    (0x2000 ≤ n && n ≤ 0x200a) || n == 0x2028 || n == 0x2029 ||
    n == 0x202f || n == 0x205f || n == 0x3000 || n == 0xfeff

/-- The fixed currency symbol set, from the SYMBOLS constant of both variants. -/
def isSymbol (c : Char) : Bool :=
  c == '$' || c == '€' || c == '£' || c == '¥' || c == '₹' || c == '₩' ||
    c == '₽' || c == '₺' || c == '₫' || c == '₴' || c == '₦' || c == '฿' || c == '₱'

/-- The test of hasMeaningfulTextAfter on one character: the Unicode property
classes L and N of the regex.  The table below is exact on the Basic Latin and
Latin-1 blocks (code points up to U+00FF) and is only ever applied there: the
theorem about the trailing-context rule restricts its trailing contexts to
that range by hypothesis, and every other theorem evaluates the rewrite on
ASCII inputs only, so the class is never consulted outside the exact region.
Within it: the ASCII letters and digits, the Latin-1 letters (including µ, ª,
º and excluding the multiplication and division signs), and the Latin-1
superscripts and vulgar fractions of class No. -/
def isLetterOrNumber (c : Char) : Bool :=
  let n := c.toNat
  isDigitC c || (65 ≤ n && n ≤ 90) || (97 ≤ n && n ≤ 122) ||
    n == 0xaa || n == 0xb2 || n == 0xb3 || n == 0xb5 || n == 0xb9 || n == 0xba ||
    (0xbc ≤ n && n ≤ 0xbe) ||
    (0xc0 ≤ n && n ≤ 0xff && n ≠ 0xd7 && n ≠ 0xf7)

/-- ASCII lower-casing, the canonicalization applied by the case-insensitive
regex flag to the ASCII letters occurring in the patterns. -/
def lcChar (c : Char) : Char :=
  if 65 ≤ c.toNat && c.toNat ≤ 90 then Char.ofNat (c.toNat + 32) else c

/-- The currencyNames lookup: symbol to currency word, defaulting to money. -/
def currencyWord (c : Char) : List Char :=
  if c = '$' then "dollars".toList
  else if c = '€' then "euros".toList
  else if c = '£' then "pounds".toList
  else if c = '¥' then "yen".toList
  else if c = '₹' then "rupees".toList
  else if c = '₩' then "won".toList
  else if c = '₽' then "rubles".toList
  else if c = '₺' then "lira".toList
  else if c = '฿' then "baht".toList
  else if c = '₱' then "pesos".toList
  else if c = '₦' then "naira".toList
  else if c = '₴' then "hryvnia".toList
  else if c = '₫' then "dong".toList
  else "money".toList

/-- currencyWordList: the deduplicated currency words sorted by length,
longest first (JavaScript sort is stable, so insertion order breaks ties).
Regex-metacharacter escaping is the identity on these words.  No word is a
prefix of another, so the alternation order does not affect match results. -/
def currencyWordsSorted : List (List Char) :=
  ["dollars".toList, "hryvnia".toList, "pounds".toList, "rupees".toList,
   "rubles".toList, "euros".toList, "pesos".toList, "naira".toList,
   "lira".toList, "baht".toList, "dong".toList, "yen".toList, "won".toList]

/-- NO_WORD_MARK, the private-use sentinel character U+E000. -/
def MARK : Char := Char.ofNat 0xE000

/-- Maximal whitespace prefix, modelling a greedy backslash-s-star.  In every
pattern the atom following the whitespace quantifier can never match a
whitespace character, so the greedy split is the only one a backtracking
engine can succeed with. -/
def spanSpaces : List Char → List Char × List Char
  | [] => ([], [])
  | c :: cs =>
    if isJSSpace c then
      let p := spanSpaces cs
      (c :: p.1, p.2)
    else ([], c :: cs)

/-- Backtracking candidates of a greedy backslash-d-plus: every nonempty digit
prefix paired with its rest, longest first. -/
def digitCands : List Char → List (List Char × List Char)
  | [] => []
  | c :: cs =>
    if isDigitC c then
      ((digitCands cs).map fun pr => (c :: pr.1, pr.2)) ++ [([c], cs)]
    else []

/-- Backtracking candidates of the greedy star over a comma followed by exactly
three digits (the grouped-thousands tail of NUM), most repetitions first. -/
def commaCands : List Char → List (List Char × List Char)
  | ',' :: d1 :: d2 :: d3 :: rest =>
    if isDigitC d1 && isDigitC d2 && isDigitC d3 then
      ((commaCands rest).map fun pr => (',' :: d1 :: d2 :: d3 :: pr.1, pr.2)) ++
        [([], ',' :: d1 :: d2 :: d3 :: rest)]
    else [([], ',' :: d1 :: d2 :: d3 :: rest)]
  | cs => [([], cs)]

/-- Backtracking candidates of the greedy optional decimal part, a dot followed
by backslash-d-plus: the taken alternatives (longest digit run first), then the
skipped alternative. -/
def optDecCands : List Char → List (List Char × List Char)
  | '.' :: rest =>
    ((digitCands rest).map fun pr => ('.' :: pr.1, pr.2)) ++ [([], '.' :: rest)]
  | cs => [([], cs)]

/-- Backtracking candidates of the capture group NUM, the concatenation of the
three quantified parts in engine priority order. -/
def numCands (cs : List Char) : List (List Char × List Char) :=
  (digitCands cs).flatMap fun d =>
    (commaCands d.2).flatMap fun g =>
      (optDecCands g.2).map fun o => (d.1 ++ g.1 ++ o.1, o.2)

/-- Backtracking candidates of the group backslash-d-plus followed by the
grouped-thousands star (the anchored integer part of padHundredths). -/
def intCands (cs : List Char) : List (List Char × List Char) :=
  (digitCands cs).flatMap fun d =>
    (commaCands d.2).map fun g => (d.1 ++ g.1, g.2)

/-- A word boundary directly after a word character, for patterns 0 to 3
(case-insensitive flag only, no unicode flag: their word class is the plain
ASCII one): holds when the next character is absent or not a word character.
Every boundary in the patterns sits after a digit or a letter of the match,
so this is the full test. -/
def wordBoundaryOk : List Char → Bool
  | [] => true
  | c :: _ => !(isWordChar c)

/-- The word class of pattern 4, whose regex carries both the unicode and the
case-insensitive flags: under simple case folding the class also matches
LATIN SMALL LETTER LONG S (U+017F, folds to s) and KELVIN SIGN (U+212A,
folds to k); these are the only code points outside ASCII that fold into the
class. -/
def isWordCharU (c : Char) : Bool :=
  isWordChar c || c.toNat == 0x17f || c.toNat == 0x212a

/-- The word boundary of pattern 4, using its unicode-mode word class. -/
def wordBoundaryOkU : List Char → Bool
  | [] => true
  | c :: _ => !(isWordCharU c)

/-- Case-insensitive literal match for the patterns without the unicode flag
(patterns 0 to 2): strips w (given in lower case) from the front of the
input, comparing through ASCII lower-casing.  Without the unicode flag the
engine canonicalizes through toUpperCase and rejects a non-ASCII character
whose uppercase form is ASCII, so for the ASCII pattern letters this is the
exact test over all of Unicode. -/
def ciStrip : List Char → List Char → Option (List Char)
  | [], cs => some cs
  | _ :: _, [] => none
  | w :: ws, c :: cs => if lcChar w = lcChar c then ciStrip ws cs else none

/-- Simple case folding onto the ASCII pattern letters of pattern 4 (unicode
plus case-insensitive flags): besides the ASCII case pairs, LONG S folds to s
and KELVIN SIGN folds to k; no other code point folds to an ASCII letter. -/
def foldU (c : Char) : Char :=
  if c.toNat == 0x17f then 's' else if c.toNat == 0x212a then 'k' else lcChar c

/-- Case-insensitive literal match under the unicode flag (the currency-word
lookahead of pattern 4): strips w (given in lower case) from the front of the
input, comparing through simple case folding. -/
def ciStripU : List Char → List Char → Option (List Char)
  | [], cs => some cs
  | _ :: _, [] => none
  | w :: ws, c :: cs => if foldU w = foldU c then ciStripU ws cs else none

/-- The four magnitude words of pattern 0, in alternation order.  They pairwise
differ within their first two letters, so at most one can match at a point. -/
def magWords : List (List Char) :=
  ["million".toList, "billion".toList, "trillion".toList, "thousand".toList]

/-- Continuation of pattern 0 after NUM: required whitespace, a magnitude word,
and a word boundary.  Returns the rest after the whole match. -/
def p0After (r : List Char) : Option (List Char) :=
  let sp := spanSpaces r
  if sp.1.isEmpty then none
  else
    (magWords.findSome? fun w => ciStrip w sp.2).bind fun r3 =>
      if wordBoundaryOk r3 then some r3 else none

/-- Continuation of pattern 1 after NUM: optional whitespace, the literal bn
(case-insensitive), and a word boundary. -/
def p1After (r : List Char) : Option (List Char) :=
  (ciStrip ['b', 'n'] (spanSpaces r).2).bind fun r3 =>
    if wordBoundaryOk r3 then some r3 else none

/-- Continuation of pattern 2 after NUM: optional whitespace, one of the
single-letter abbreviations k m b t (case-insensitive), and a word boundary. -/
def p2After (r : List Char) : Option (List Char) :=
  match (spanSpaces r).2 with
  | [] => none
  | c :: r3 =>
    if lcChar c = 'k' || lcChar c = 'm' || lcChar c = 'b' || lcChar c = 't' then
      if wordBoundaryOk r3 then some r3 else none
    else none

/-- The lookahead rejecting a dot or comma followed by a digit. -/
def laDotCommaDigit : List Char → Bool
  | c1 :: c2 :: _ => (c1 == '.' || c1 == ',') && isDigitC c2
  | _ => false

/-- The lookahead recognizing optional whitespace followed by an
already-spelled-out currency word ending at a word boundary, with the
unicode-mode folding and word class of pattern 4. -/
def laCurrencyWord (r : List Char) : Bool :=
  currencyWordsSorted.any fun w =>
    match ciStripU w (spanSpaces r).2 with
    | some r3 => wordBoundaryOkU r3
    | none => false

/-- Continuation of pattern 4 after NUM: the word boundary and the three
negative lookaheads (dot-or-comma digit, spelled-out currency word, sentinel),
all under the unicode-mode classes of its flags.  Nothing further is
consumed. -/
def p4After (r : List Char) : Option (List Char) :=
  if wordBoundaryOkU r && !laDotCommaDigit r && !laCurrencyWord r &&
      !(r.head? == some MARK) then
    some r
  else none

/-- Shared shape of all five pattern matchers: a currency symbol, optional
whitespace, a quantified number group (the candidate generator for its
backtracking splits), and a pattern-specific continuation on the rest.
Returns the symbol, the number capture, and the rest after the whole match. -/
def matchSym (cands : List Char → List (List Char × List Char))
    (after : List Char → Option (List Char)) :
    List Char → Option (Char × List Char × List Char)
  | [] => none
  | c :: cs =>
    if isSymbol c then
      (cands (spanSpaces cs).2).findSome? fun pr =>
        (after pr.2).map fun r3 => (c, pr.1, r3)
    else none

/-- Pattern 0 matcher: symbol, optional whitespace, NUM, whitespace, magnitude
word, boundary. -/
def matchP0 : List Char → Option (Char × List Char × List Char) :=
  matchSym numCands p0After

/-- Pattern 1 matcher (the bn abbreviation). -/
def matchP1 : List Char → Option (Char × List Char × List Char) :=
  matchSym numCands p1After

/-- Pattern 2 matcher (single-letter magnitude abbreviation). -/
def matchP2 : List Char → Option (Char × List Char × List Char) :=
  matchSym numCands p2After

/-- Exactly three digits, the group backslash-d-three of pattern 3. -/
def take3Digits : List Char → Option (List Char × List Char)
  | d1 :: d2 :: d3 :: rest =>
    if isDigitC d1 && isDigitC d2 && isDigitC d3 then some ([d1, d2, d3], rest)
    else none
  | _ => none

/-- Continuation of pattern 3 after the before-comma digits: a comma, a
three-digit group, further grouped thousands, an optional decimal part, and a
word boundary.  Returns the rest after the whole match. -/
def p3AfterComma (r2 : List Char) : Option (List Char) :=
  match r2 with
  | ',' :: r3 =>
    (take3Digits r3).bind fun gr =>
      (commaCands gr.2).findSome? fun g2 =>
        (optDecCands g2.2).findSome? fun o3 =>
          if wordBoundaryOk o3.2 then some o3.2 else none
  | _ => none

/-- Pattern 3 matcher (thousands-separated integer with optional dropped
decimal): the captured number group is only the digits before the first
comma. -/
def matchP3 : List Char → Option (Char × List Char × List Char) :=
  matchSym digitCands p3AfterComma

/-- Pattern 4 matcher (generic bare amount). -/
def matchP4 : List Char → Option (Char × List Char × List Char) :=
  matchSym numCands p4After

/-- hasMeaningfulTextAfter from the refined variant: the tail of the string
after a match contains some letter or number. -/
def hasTextAfter (r : List Char) : Bool := r.any isLetterOrNumber

/-- Continuation of the anchored padHundredths regex after the integer part:
the end of the string (no decimal captured), or a dot followed by digits
running to the end of the string (the greedy digit run then the end anchor
succeed exactly when the whole tail is nonempty digits). -/
def padKont (pr : List Char × List Char) : Option (List Char × List Char) :=
  match pr.2 with
  | [] => some (pr.1, ([] : List Char))
  | '.' :: ds => if !ds.isEmpty && ds.all isDigitC then some (pr.1, ds) else none
  | _ => none

/-- padHundredths of src/content.js: parse the amount against the anchored
regex of an integer with grouped thousands and an optional decimal part; if a
single decimal digit was captured, append a zero, otherwise return the input
unchanged (also when the regex fails to match). -/
def padHundredths (s : List Char) : List Char :=
  match (intCands s).findSome? padKont with
  | some ipdec =>
    if ipdec.2.length = 1 then ipdec.1 ++ '.' :: ipdec.2 ++ ['0'] else s
  | none => s

/-- Replacement step of pattern 0 in the refined variant: the magnitude word is
dropped; the currency word is appended only when meaningful text follows. -/
def step0 (cs : List Char) : Option (List Char × List Char) :=
  match matchP0 cs with
  | some (sym, num, rest) =>
    some ((if hasTextAfter rest then sym :: (num ++ ' ' :: currencyWord sym)
           else sym :: num), rest)
  | none => none

/-- Replacement step of pattern 1 in the refined variant: number kept,
sentinel appended. -/
def step1 (cs : List Char) : Option (List Char × List Char) :=
  match matchP1 cs with
  | some (sym, num, rest) => some (sym :: (num ++ [MARK]), rest)
  | none => none

/-- Replacement step of pattern 2 in the refined variant. -/
def step2 (cs : List Char) : Option (List Char × List Char) :=
  match matchP2 cs with
  | some (sym, num, rest) => some (sym :: (num ++ [MARK]), rest)
  | none => none

/-- Replacement step of pattern 3 in the refined variant: only the digits
before the first comma are kept; the currency word is appended only when
meaningful text follows. -/
def step3 (cs : List Char) : Option (List Char × List Char) :=
  match matchP3 cs with
  | some (sym, bc, rest) =>
    some ((if hasTextAfter rest then sym :: (bc ++ ' ' :: currencyWord sym)
           else sym :: bc), rest)
  | none => none

/-- Replacement step of pattern 4 in the refined variant. -/
def step4 (cs : List Char) : Option (List Char × List Char) :=
  match matchP4 cs with
  | some (sym, num, rest) =>
    some ((if hasTextAfter rest then sym :: (num ++ ' ' :: currencyWord sym)
           else sym :: num), rest)
  | none => none

/-- Global replace driver modelling String.replace with the g flag: scan left
to right, substitute each match and resume after it.  The fuel argument (the
length of the string at the call site) bounds the scan; every matcher consumes
at least the symbol character, so the fuel never runs out. -/
def replGo (m : List Char → Option (List Char × List Char)) :
    Nat → List Char → List Char
  | 0, cs => cs
  | _ + 1, [] => []
  | fuel + 1, c :: cs =>
    match m (c :: cs) with
    | some (repl, rest) => repl ++ replGo m fuel rest
    | none => c :: replGo m fuel cs

/-- One full pass of a pattern over a string. -/
def applyPat (m : List Char → Option (List Char × List Char)) (cs : List Char) :
    List Char :=
  replGo m cs.length cs

/-- The sentinel strip at the end of processTextNode: if the text contains the
sentinel, remove every occurrence. -/
def stripMarks (cs : List Char) : List Char :=
  if cs.contains MARK then cs.filter (fun c => !(c == MARK)) else cs

/-- The pure rewrite of the refined variant (src/unnamed/part_000): the five
pattern passes in order, then the sentinel strip. -/
def rewriteText (s : List Char) : List Char :=
  stripMarks (applyPat step4 (applyPat step3 (applyPat step2
    (applyPat step1 (applyPat step0 s)))))

/-- Replacement step of pattern 0 in src/content.js: magnitude word dropped,
decimals normalized, no currency word ever appended. -/
def step0C (cs : List Char) : Option (List Char × List Char) :=
  match matchP0 cs with
  | some (sym, num, rest) => some (sym :: padHundredths num, rest)
  | none => none

/-- Replacement step of pattern 1 in src/content.js. -/
def step1C (cs : List Char) : Option (List Char × List Char) :=
  match matchP1 cs with
  | some (sym, num, rest) => some (sym :: (padHundredths num ++ [MARK]), rest)
  | none => none

/-- Replacement step of pattern 2 in src/content.js. -/
def step2C (cs : List Char) : Option (List Char × List Char) :=
  match matchP2 cs with
  | some (sym, num, rest) => some (sym :: (padHundredths num ++ [MARK]), rest)
  | none => none

/-- Replacement step of pattern 3 in src/content.js. -/
def step3C (cs : List Char) : Option (List Char × List Char) :=
  match matchP3 cs with
  | some (sym, bc, rest) => some (sym :: bc, rest)
  | none => none

/-- Replacement step of pattern 4 in src/content.js. -/
def step4C (cs : List Char) : Option (List Char × List Char) :=
  match matchP4 cs with
  | some (sym, num, rest) => some (sym :: padHundredths num, rest)
  | none => none

/-- The pure rewrite of the src/content.js variant. -/
def rewriteTextCJS (s : List Char) : List Char :=
  stripMarks (applyPat step4C (applyPat step3C (applyPat step2C
    (applyPat step1C (applyPat step0C s)))))

/-- An element as seen by the skip-context test: its lower-case tag name,
whether it carries the attribute selector contenteditable equal true, and the
value of its isContentEditable DOM property (which the DOM inherits). -/
structure ElementInfo where
  tag : String
  ceAttrTrue : Bool
  isContentEditable : Bool
deriving DecidableEq

/-- Whether one element matches SKIP_SELECTOR. -/
def matchesSkipSelector (e : ElementInfo) : Bool :=
  e.tag == "script" || e.tag == "style" || e.tag == "noscript" ||
    e.tag == "textarea" || e.tag == "input" || e.tag == "option" ||
    e.tag == "pre" || e.tag == "code" || e.tag == "kbd" || e.tag == "samp" ||
    e.ceAttrTrue

/-- A text node: its text and its element ancestor chain, nearest first (empty
when the node has no parent element). -/
structure TextNode where
  text : List Char
  ancestors : List ElementInfo
deriving DecidableEq

/-- isInSkippedContext: no parent element, an editable parent, or a closest
ancestor (the parent or any element above it) matching SKIP_SELECTOR. -/
def isInSkippedContext (n : TextNode) : Bool :=
  match n.ancestors with
  | [] => true
  | el :: _ => el.isContentEditable || n.ancestors.any matchesSkipSelector

/-- shouldProcessTextNode of src/content.js (the model ranges over text nodes
only, so the nodeType test is implicit): the enabled gate, nonempty trimmed
text, a currency symbol present, and not in a skipped context. -/
def shouldProcessTextNode (enabled : Bool) (n : TextNode) : Bool :=
  if !enabled then false
  else if n.text.all isJSSpace then false
  else if !(n.text.any isSymbol) then false
  else if isInSkippedContext n then false
  else true

/-- The text value a node holds after processTextNode of src/content.js: the
eligibility test is re-run, and the rewritten text is written back only when
it changed (the stored value is the rewritten text either way). -/
def processTextNode (enabled : Bool) (n : TextNode) : List Char :=
  if shouldProcessTextNode enabled n then rewriteTextCJS n.text else n.text

/-- enqueueTextNode: the eligibility test guards insertion into the pending
set (set semantics: no duplicate membership). -/
def enqueueTextNode (enabled : Bool) (q : List TextNode) (n : TextNode) :
    List TextNode :=
  if shouldProcessTextNode enabled n then (if n ∈ q then q else q ++ [n]) else q

/-- checkState of src/content.js: the storage read either fails (the catch
branch logs and disables) or yields the stored value, possibly absent; the
gate is set from the strict comparison of the value with false. -/
inductive StorageReadResult
  | ok (v : Option Bool)
  | failure

/-- The enabled value produced by checkState for each read outcome. -/
def checkState : StorageReadResult → Bool
  | .ok v => !(v == some false)
  | .failure => false

/-- A queued node at flush time: the identity key of the WeakMap, whether the
node is still connected to a live document, and the node itself. -/
structure QNode where
  id : Nat
  connected : Bool
  node : TextNode

/-- One iteration of the flush loop for one queued node: skip when detached,
skip when the current text equals the cached last-produced text, otherwise
process and update the cache with the text the node now holds. -/
def flushVisit (enabled : Bool) (cache : Nat → Option (List Char)) (q : QNode) :
    (Nat → Option (List Char)) × QNode :=
  if !q.connected then (cache, q)
  else if cache q.id == some q.node.text then (cache, q)
  else
    let t := processTextNode enabled q.node
    (fun i => if i = q.id then some t else cache i,
     { id := q.id, connected := q.connected, node := { text := t, ancestors := q.node.ancestors } })

/-- The flush loop over the whole queue, threading the cache. -/
def flushAll (enabled : Bool) :
    (Nat → Option (List Char)) → List QNode → (Nat → Option (List Char)) × List QNode
  | cache, [] => (cache, [])
  | cache, q :: rest =>
    let h := flushVisit enabled cache q
    let t := flushAll enabled h.1 rest
    (t.1, h.2 :: t.2)

/-- The whole animation-frame callback: run the loop, then clear the queue
unconditionally.  Returns the cache, the visited nodes, and the new queue. -/
def flushCallback (enabled : Bool) (cache : Nat → Option (List Char))
    (queue : List QNode) :
    ((Nat → Option (List Char)) × List QNode) × List QNode :=
  (flushAll enabled cache queue, [])

/-- The flush loop with the JavaScript exception semantics made explicit: the
visitor may throw, and the loop body has no handler, so a thrown exception
propagates out of the for-of loop.  Returns the outputs of the nodes that
completed, and the queued nodes that were never visited because of the
exception (empty when no exception occurred). -/
def flushLoopE (visit : QNode → Except Unit QNode) :
    List QNode → List QNode × List QNode
  | [] => ([], [])
  | q :: rest =>
    match visit q with
    | .ok q2 =>
      let t := flushLoopE visit rest
      (q2 :: t.1, t.2)
    | .error _ => ([], rest)

/-- A plain unskipped ancestor chain for example nodes. -/
def plainDiv : ElementInfo := { tag := "div", ceAttrTrue := false, isContentEditable := false }

/-- A code element, a member of the skip-context set. -/
def codeEl : ElementInfo := { tag := "code", ceAttrTrue := false, isContentEditable := false }

/-- Example node: currency text inside a code block (skipped context). -/
def nodeInCode : TextNode := { text := "$5 is due".toList, ancestors := [plainDiv, codeEl] }

/-- Example eligible nodes used by the flush and exception examples. -/
def qn (i : Nat) (s : String) : QNode :=
  { id := i, connected := true, node := { text := s.toList, ancestors := [plainDiv] } }

/-- A visitor that rewrites, but throws on the node with identity 1: the shape
of an exception raised inside the rewrite logic for exactly one queued node. -/
def throwingVisit (q : QNode) : Except Unit QNode :=
  if q.id = 1 then .error ()
  else .ok { id := q.id, connected := q.connected,
             node := { text := rewriteTextCJS q.node.text, ancestors := q.node.ancestors } }

/-- Whether the first character, if any, fails the digit class. -/
def headNotDigit : List Char → Bool
  | [] => true
  | c :: _ => !(isDigitC c)

/-- Whether the first character, if any, fails the symbol class. -/
def headNotSymbol : List Char → Bool
  | [] => true
  | c :: _ => !(isSymbol c)

/-- Example node: currency text in a plain, eligible context. -/
def nodePlain : TextNode := { text := "$5 is due".toList, ancestors := [plainDiv] }

/-- The empty processed-text cache. -/
def emptyCache : Nat → Option (List Char) := fun _ => none

/-- Example queued node that is no longer connected to a live document. -/
def detachedQ : QNode := { id := 7, connected := false, node := nodePlain }

/-! ### Character-class facts -/

lemma isSymbol_elim {c : Char} (h : isSymbol c = true) :
    c = '$' ∨ c = '€' ∨ c = '£' ∨ c = '¥' ∨ c = '₹' ∨ c = '₩' ∨ c = '₽' ∨
      c = '₺' ∨ c = '₫' ∨ c = '₴' ∨ c = '₦' ∨ c = '฿' ∨ c = '₱' := by
  simp only [isSymbol, Bool.or_eq_true, beq_iff_eq] at h
  tauto

lemma isDigitC_bounds {c : Char} (h : isDigitC c = true) :
    48 ≤ c.toNat ∧ c.toNat ≤ 57 := by
  simpa only [isDigitC, Bool.and_eq_true, decide_eq_true_eq] using h

lemma not_space_of_digit {c : Char} (h : isDigitC c = true) : isJSSpace c = false := by
  obtain ⟨h1, h2⟩ := isDigitC_bounds h
  simp only [isJSSpace, Bool.or_eq_false_iff, Bool.and_eq_false_iff, beq_eq_false_iff_ne,
    ne_eq, decide_eq_false_iff_not]
  omega

lemma not_symbol_of_digit {c : Char} (h : isDigitC c = true) : isSymbol c = false := by
  cases hs : isSymbol c
  · rfl
  · rcases isSymbol_elim hs with rfl | rfl | rfl | rfl | rfl | rfl | rfl | rfl | rfl |
      rfl | rfl | rfl | rfl <;> exact absurd h (by decide)

lemma not_symbol_of_space {c : Char} (h : isJSSpace c = true) : isSymbol c = false := by
  cases hs : isSymbol c
  · rfl
  · rcases isSymbol_elim hs with rfl | rfl | rfl | rfl | rfl | rfl | rfl | rfl | rfl |
      rfl | rfl | rfl | rfl <;> exact absurd h (by decide)

lemma word_of_digit {c : Char} (h : isDigitC c = true) : isWordChar c = true := by
  simp [isWordChar, h]

lemma digit_ne_mark {c : Char} (h : isDigitC c = true) : c ≠ MARK := by
  intro he
  subst he
  exact absurd h (by decide)

lemma symbol_ne_mark {c : Char} (h : isSymbol c = true) : c ≠ MARK := by
  intro he
  subst he
  exact absurd h (by decide)

lemma space_ne_mark {c : Char} (h : isJSSpace c = true) : c ≠ MARK := by
  intro he
  subst he
  exact absurd h (by decide)

lemma lcChar_digit {c : Char} (h : isDigitC c = true) : lcChar c = c := by
  obtain ⟨h1, h2⟩ := isDigitC_bounds h
  have hc : (65 ≤ c.toNat && c.toNat ≤ 90) = false := by
    simp only [Bool.and_eq_false_iff, decide_eq_false_iff_not]
    omega
  simp [lcChar, hc]

lemma digit_ne_of_out {c : Char} (h : isDigitC c = true) {d : Char}
    (hd : d.toNat < 48 ∨ 57 < d.toNat) : c ≠ d := by
  intro he
  subst he
  obtain ⟨h1, h2⟩ := isDigitC_bounds h
  omega

lemma mark_not_in_currencyWord {c : Char} (h : isSymbol c = true) : MARK ∉ currencyWord c := by
  rcases isSymbol_elim h with rfl | rfl | rfl | rfl | rfl | rfl | rfl | rfl | rfl |
    rfl | rfl | rfl | rfl <;> decide

/-! ### Whitespace spans and quantifier candidates -/

lemma spanSpaces_not_space {c : Char} (h : isJSSpace c = false) (l : List Char) :
    spanSpaces (c :: l) = ([], c :: l) := by
  simp [spanSpaces, h]

lemma spanSpaces_space {c : Char} (h : isJSSpace c = true) (l : List Char) :
    spanSpaces (c :: l) = (c :: (spanSpaces l).1, (spanSpaces l).2) := by
  simp [spanSpaces, h]

lemma spanSpaces_digits {ds : List Char} (t : List Char) (hds : ds ≠ [])
    (hd : ∀ d ∈ ds, isDigitC d = true) : spanSpaces (ds ++ t) = ([], ds ++ t) := by
  rcases ds with _ | ⟨d, ds⟩
  · exact absurd rfl hds
  · rw [List.cons_append]
    exact spanSpaces_not_space (not_space_of_digit (hd d (by simp))) _

lemma spanSpaces_all_space {sp : List Char} (h : ∀ x ∈ sp, isJSSpace x = true)
    {l : List Char} (hl : spanSpaces l = ([], l)) : spanSpaces (sp ++ l) = (sp, l) := by
  induction sp with
  | nil => simpa using hl
  | cons c cs ih =>
    rw [List.cons_append, spanSpaces_space (h c (by simp)),
      ih (fun x hx => h x (by simp [hx]))]

lemma digitCands_none {l : List Char} (h : headNotDigit l = true) : digitCands l = [] := by
  rcases l with _ | ⟨c, l⟩
  · rfl
  · simp only [headNotDigit, Bool.not_eq_true'] at h
    simp [digitCands, h]

lemma digitCands_structure {ds : List Char} (t : List Char) (hds : ds ≠ [])
    (hd : ∀ d ∈ ds, isDigitC d = true) (hnd : headNotDigit t = true) :
    ∃ tl, digitCands (ds ++ t) = (ds, t) :: tl ∧
      ∀ pr ∈ tl, ∃ x r, isDigitC x = true ∧ pr.2 = x :: r := by
  induction ds with
  | nil => exact absurd rfl hds
  | cons d ds ih =>
    rcases hcase : ds with _ | ⟨d2, ds2⟩
    · refine ⟨[], ?_, by simp⟩
      rw [List.cons_append, List.nil_append, show digitCands (d :: t) =
        ((digitCands t).map fun pr => (d :: pr.1, pr.2)) ++ [([d], t)] from by
          simp [digitCands, hd d (by simp)]]
      rw [digitCands_none hnd]
      rfl
    · subst hcase
      obtain ⟨tl, htl, hmem⟩ := ih (by simp) (fun x hx => hd x (by simp [hx]))
      refine ⟨(tl.map fun pr => (d :: pr.1, pr.2)) ++ [([d], (d2 :: ds2) ++ t)], ?_, ?_⟩
      · rw [List.cons_append, show digitCands (d :: ((d2 :: ds2) ++ t)) =
          ((digitCands ((d2 :: ds2) ++ t)).map fun pr => (d :: pr.1, pr.2)) ++
            [([d], (d2 :: ds2) ++ t)] from by simp [digitCands, hd d (by simp)]]
        rw [htl]
        simp
      · intro pr hpr
        rcases List.mem_append.1 hpr with hpr | hpr
        · obtain ⟨pr0, hpr0, rfl⟩ := List.mem_map.1 hpr
          obtain ⟨x, r, hx, hr⟩ := hmem pr0 hpr0
          exact ⟨x, r, hx, hr⟩
        · simp only [List.mem_singleton] at hpr
          subst hpr
          exact ⟨d2, ds2 ++ t, hd d2 (by simp), by simp⟩

lemma commaCands_not_comma {l : List Char} (h : l.head? ≠ some ',') :
    commaCands l = [([], l)] := by
  rw [commaCands.eq_def]
  split
  · exact absurd rfl h
  · rfl

lemma optDecCands_not_dot {l : List Char} (h : l.head? ≠ some '.') :
    optDecCands l = [([], l)] := by
  rw [optDecCands.eq_def]
  split
  · exact absurd rfl h
  · rfl

lemma commaCands_digit {x : Char} (h : isDigitC x = true) (r : List Char) :
    commaCands (x :: r) = [([], x :: r)] := by
  refine commaCands_not_comma ?_
  simp only [List.head?_cons, ne_eq, Option.some.injEq]
  exact @digit_ne_of_out x h ',' (by decide)

lemma optDecCands_digit {x : Char} (h : isDigitC x = true) (r : List Char) :
    optDecCands (x :: r) = [([], x :: r)] := by
  refine optDecCands_not_dot ?_
  simp only [List.head?_cons, ne_eq, Option.some.injEq]
  exact @digit_ne_of_out x h '.' (by decide)

/-! ### findSome? helpers -/

lemma findSome?_none {α β : Type} {l : List α} {f : α → Option β}
    (h : ∀ x ∈ l, f x = none) : l.findSome? f = none := by
  induction l with
  | nil => rfl
  | cons a l ih =>
    rw [List.findSome?_cons, h a (by simp)]
    exact ih (fun x hx => h x (by simp [hx]))

lemma findSome?_cons_tail_none {α β : Type} {x : α} {tl : List α} {f : α → Option β}
    (h : ∀ y ∈ tl, f y = none) : (x :: tl).findSome? f = f x := by
  rw [List.findSome?_cons]
  cases hx : f x
  · simp [findSome?_none h]
  · rfl

lemma findSome?_flatMap {α β γ : Type} (l : List α) (F : α → List β) (f : β → Option γ) :
    (l.flatMap F).findSome? f = l.findSome? fun x => (F x).findSome? f := by
  induction l with
  | nil => rfl
  | cons a l ih =>
    rw [List.flatMap_cons, List.findSome?_append, ih, List.findSome?_cons]
    cases h : (F a).findSome? f <;> simp [h]

/-! ### The NUM candidate list under a continuation -/

lemma numCands_findSome? {α : Type} {ds t : List Char} (f : List Char × List Char → Option α)
    (hds : ds ≠ []) (hd : ∀ d ∈ ds, isDigitC d = true) (hnd : headNotDigit t = true)
    (hcT : commaCands t = [([], t)]) (hoT : optDecCands t = [([], t)])
    (hfd : ∀ p x r, isDigitC x = true → f (p, x :: r) = none) :
    (numCands (ds ++ t)).findSome? f = f (ds, t) := by
  unfold numCands
  rw [findSome?_flatMap]
  obtain ⟨tl, htl, hmem⟩ := digitCands_structure t hds hd hnd
  rw [htl]
  have htail : ∀ y ∈ tl, ((commaCands y.2).flatMap fun g =>
      (optDecCands g.2).map fun o => (y.1 ++ g.1 ++ o.1, o.2)).findSome? f = none := by
    intro y hy
    obtain ⟨x, r, hx, h2⟩ := hmem y hy
    rw [h2, commaCands_digit hx]
    simp only [List.flatMap_cons, List.flatMap_nil, List.append_nil, optDecCands_digit hx,
      List.map_cons, List.map_nil]
    rw [List.findSome?_cons]
    have hnone := hfd (y.1 ++ [] ++ []) x r hx
    simp only [List.append_nil] at hnone
    simp only [List.append_nil, hnone]
    rfl
  rw [findSome?_cons_tail_none htail]
  simp only [hcT, List.flatMap_cons, List.flatMap_nil, List.append_nil, hoT,
    List.map_cons, List.map_nil]
  rw [List.findSome?_cons]
  cases hval : f (ds, t) <;> simp [hval]

/-! ### Pattern continuations on a digit-headed rest -/

lemma p0After_digit {x : Char} (hx : isDigitC x = true) (r : List Char) :
    p0After (x :: r) = none := by
  unfold p0After
  rw [spanSpaces_not_space (not_space_of_digit hx)]
  rfl

lemma p1After_digit {x : Char} (hx : isDigitC x = true) (r : List Char) :
    p1After (x :: r) = none := by
  unfold p1After
  rw [spanSpaces_not_space (not_space_of_digit hx)]
  have hbx : ¬(lcChar 'b' = lcChar x) := by
    rw [lcChar_digit hx, show lcChar 'b' = 'b' from by decide]
    exact Ne.symm (@digit_ne_of_out x hx 'b' (by decide))
  simp [ciStrip, hbx]

lemma p2After_digit {x : Char} (hx : isDigitC x = true) (r : List Char) :
    p2After (x :: r) = none := by
  unfold p2After
  rw [spanSpaces_not_space (not_space_of_digit hx)]
  have h1 : lcChar x = x := lcChar_digit hx
  have hk : x ≠ 'k' := @digit_ne_of_out x hx 'k' (by decide)
  have hm : x ≠ 'm' := @digit_ne_of_out x hx 'm' (by decide)
  have hb : x ≠ 'b' := @digit_ne_of_out x hx 'b' (by decide)
  have ht : x ≠ 't' := @digit_ne_of_out x hx 't' (by decide)
  simp [h1, hk, hm, hb, ht]

lemma p4After_digit {x : Char} (hx : isDigitC x = true) (r : List Char) :
    p4After (x :: r) = none := by
  unfold p4After
  have hb : wordBoundaryOkU (x :: r) = false := by
    simp [wordBoundaryOkU, isWordCharU, word_of_digit hx]
  simp [hb]

lemma p3AfterComma_not_comma {r2 : List Char} (h : r2.head? ≠ some ',') :
    p3AfterComma r2 = none := by
  rw [p3AfterComma.eq_def]
  split
  · exact absurd rfl h
  · rfl

lemma p3AfterComma_digit {x : Char} (hx : isDigitC x = true) (r : List Char) :
    p3AfterComma (x :: r) = none := by
  refine p3AfterComma_not_comma ?_
  simp only [List.head?_cons, ne_eq, Option.some.injEq]
  exact @digit_ne_of_out x hx ',' (by decide)

/-! ### The shared matcher on a symbol-number-rest input -/

lemma spanSpaces_split {sp ds t : List Char} (hsp : ∀ x ∈ sp, isJSSpace x = true)
    (hds : ds ≠ []) (hd : ∀ d ∈ ds, isDigitC d = true) :
    spanSpaces (sp ++ ds ++ t) = (sp, ds ++ t) := by
  rw [List.append_assoc]
  exact spanSpaces_all_space hsp (spanSpaces_digits t hds hd)

lemma matchSym_numCands_eq {c : Char} {sp ds t : List Char}
    (after : List Char → Option (List Char)) (hc : isSymbol c = true)
    (hsp : ∀ x ∈ sp, isJSSpace x = true) (hds : ds ≠ [])
    (hd : ∀ d ∈ ds, isDigitC d = true) (hnd : headNotDigit t = true)
    (hcT : commaCands t = [([], t)]) (hoT : optDecCands t = [([], t)])
    (hdig : ∀ x r, isDigitC x = true → after (x :: r) = none) :
    matchSym numCands after (c :: (sp ++ ds ++ t)) =
      (after t).map fun r3 => (c, ds, r3) := by
  rw [matchSym.eq_def]
  simp only [hc, if_true]
  rw [spanSpaces_split hsp hds hd]
  rw [numCands_findSome? (fun pr => (after pr.2).map fun r3 => (c, pr.1, r3)) hds hd hnd hcT hoT
    (fun p x r hx => by simp [hdig x r hx])]

lemma matchSym_digitCands_eq {c : Char} {sp ds t : List Char}
    (after : List Char → Option (List Char)) (hc : isSymbol c = true)
    (hsp : ∀ x ∈ sp, isJSSpace x = true) (hds : ds ≠ [])
    (hd : ∀ d ∈ ds, isDigitC d = true) (hnd : headNotDigit t = true)
    (hdig : ∀ x r, isDigitC x = true → after (x :: r) = none) :
    matchSym digitCands after (c :: (sp ++ ds ++ t)) =
      (after t).map fun r3 => (c, ds, r3) := by
  rw [matchSym.eq_def]
  simp only [hc, if_true]
  rw [spanSpaces_split hsp hds hd]
  obtain ⟨tl, htl, hmem⟩ := digitCands_structure t hds hd hnd
  rw [htl]
  have htail : ∀ y ∈ tl, ((after y.2).map fun r3 => (c, y.1, r3)) = none := by
    intro y hy
    obtain ⟨x, r, hx, h2⟩ := hmem y hy
    rw [h2, hdig x r hx]
    rfl
  rw [findSome?_cons_tail_none htail]

lemma matchSym_headNotSymbol (cands) (after) {l : List Char}
    (hl : headNotSymbol l = true) : matchSym cands after l = none := by
  rcases l with _ | ⟨c, cs⟩
  · rfl
  · simp only [headNotSymbol, Bool.not_eq_true'] at hl
    rw [matchSym.eq_def]
    simp [hl]

/-! ### The global-replace driver -/

lemma replGo_eq_self (m : List Char → Option (List Char × List Char)) (fuel : Nat)
    {cs : List Char} (h : ∀ n, m (cs.drop n) = none) : replGo m fuel cs = cs := by
  induction cs generalizing fuel with
  | nil => cases fuel <;> rfl
  | cons c cs ih =>
    cases fuel with
    | zero => rfl
    | succ fuel =>
      have h0 := h 0
      simp only [List.drop_zero] at h0
      rw [replGo.eq_def]
      simp only [h0]
      rw [ih fuel (fun n => by
        have hn := h (n + 1)
        simpa only [List.drop_succ_cons] using hn)]

lemma applyPat_eq_self (m : List Char → Option (List Char × List Char))
    {cs : List Char} (h : ∀ n, m (cs.drop n) = none) : applyPat m cs = cs :=
  replGo_eq_self m cs.length h

lemma drops_none_of_no_symbol (m : List Char → Option (List Char × List Char))
    (hm : ∀ l, headNotSymbol l = true → m l = none)
    {l : List Char} (hl : ∀ x ∈ l, isSymbol x = false) : ∀ n, m (l.drop n) = none := by
  intro n
  rcases hdrop : l.drop n with _ | ⟨x, r⟩
  · exact hm [] rfl
  · have hx : x ∈ l := List.drop_subset n l (hdrop ▸ List.mem_cons_self x r)
    exact hm _ (by simp [headNotSymbol, hl x hx])

lemma drops_none_cons (m : List Char → Option (List Char × List Char))
    (hm : ∀ l, headNotSymbol l = true → m l = none)
    {c : Char} {rest : List Char} (h0 : m (c :: rest) = none)
    (hrest : ∀ x ∈ rest, isSymbol x = false) :
    ∀ n, m ((c :: rest).drop n) = none := by
  intro n
  cases n with
  | zero => simpa using h0
  | succ n =>
    rw [List.drop_succ_cons]
    exact drops_none_of_no_symbol m hm hrest n

lemma applyPat_single (m : List Char → Option (List Char × List Char))
    {c : Char} {cs repl rest : List Char}
    (h0 : m (c :: cs) = some (repl, rest))
    (hrest : ∀ n, m (rest.drop n) = none) :
    applyPat m (c :: cs) = repl ++ rest := by
  unfold applyPat
  simp only [List.length_cons]
  rw [replGo.eq_def]
  simp only [h0]
  rw [replGo_eq_self m cs.length hrest]

/-! ### Step functions on an input that starts with a non-symbol -/

lemma step0_headNotSymbol : ∀ l, headNotSymbol l = true → step0 l = none := by
  intro l hl
  unfold step0 matchP0
  rw [matchSym_headNotSymbol numCands p0After hl]

lemma step1_headNotSymbol : ∀ l, headNotSymbol l = true → step1 l = none := by
  intro l hl
  unfold step1 matchP1
  rw [matchSym_headNotSymbol numCands p1After hl]

lemma step2_headNotSymbol : ∀ l, headNotSymbol l = true → step2 l = none := by
  intro l hl
  unfold step2 matchP2
  rw [matchSym_headNotSymbol numCands p2After hl]

lemma step3_headNotSymbol : ∀ l, headNotSymbol l = true → step3 l = none := by
  intro l hl
  unfold step3 matchP3
  rw [matchSym_headNotSymbol digitCands p3AfterComma hl]

lemma step4_headNotSymbol : ∀ l, headNotSymbol l = true → step4 l = none := by
  intro l hl
  unfold step4 matchP4
  rw [matchSym_headNotSymbol numCands p4After hl]

/-! ### Sentinel stripping -/

lemma stripMarks_id {l : List Char} (h : MARK ∉ l) : stripMarks l = l := by
  have hc : l.contains MARK = false := by
    rw [List.contains_eq_any_beq]
    simp only [List.any_eq_false]
    intro x hx
    simp only [beq_iff_eq]
    intro he
    exact h (he ▸ hx)
  unfold stripMarks
  rw [hc]
  rfl

/-! ### The rewrite on a symbol-digits-context family of inputs -/

lemma rewrite_family_match {c : Char} {sp ds t : List Char}
    (hc : isSymbol c = true) (hsp : ∀ x ∈ sp, isJSSpace x = true)
    (hds : ds ≠ []) (hd : ∀ d ∈ ds, isDigitC d = true)
    (hnd : headNotDigit t = true)
    (hcT : commaCands t = [([], t)]) (hoT : optDecCands t = [([], t)])
    (h0T : p0After t = none) (h1T : p1After t = none) (h2T : p2After t = none)
    (h3T : t.head? ≠ some ',') (h4T : p4After t = some t)
    (hsymT : ∀ x ∈ t, isSymbol x = false) (hmkT : MARK ∉ t) :
    rewriteText (c :: (sp ++ ds ++ t)) =
      (if hasTextAfter t then c :: (ds ++ ' ' :: currencyWord c) else c :: ds) ++ t := by
  have hrest_nosym : ∀ x ∈ sp ++ ds ++ t, isSymbol x = false := by
    intro x hx
    rcases List.mem_append.1 hx with hx | hx
    · rcases List.mem_append.1 hx with hx | hx
      · exact not_symbol_of_space (hsp x hx)
      · exact not_symbol_of_digit (hd x hx)
    · exact hsymT x hx
  have e0 : applyPat step0 (c :: (sp ++ ds ++ t)) = c :: (sp ++ ds ++ t) := by
    refine applyPat_eq_self _ (drops_none_cons _ step0_headNotSymbol ?_ hrest_nosym)
    unfold step0 matchP0
    rw [matchSym_numCands_eq p0After hc hsp hds hd hnd hcT hoT
      (fun x r hx => p0After_digit hx r), h0T]
    rfl
  have e1 : applyPat step1 (c :: (sp ++ ds ++ t)) = c :: (sp ++ ds ++ t) := by
    refine applyPat_eq_self _ (drops_none_cons _ step1_headNotSymbol ?_ hrest_nosym)
    unfold step1 matchP1
    rw [matchSym_numCands_eq p1After hc hsp hds hd hnd hcT hoT
      (fun x r hx => p1After_digit hx r), h1T]
    rfl
  have e2 : applyPat step2 (c :: (sp ++ ds ++ t)) = c :: (sp ++ ds ++ t) := by
    refine applyPat_eq_self _ (drops_none_cons _ step2_headNotSymbol ?_ hrest_nosym)
    unfold step2 matchP2
    rw [matchSym_numCands_eq p2After hc hsp hds hd hnd hcT hoT
      (fun x r hx => p2After_digit hx r), h2T]
    rfl
  have e3 : applyPat step3 (c :: (sp ++ ds ++ t)) = c :: (sp ++ ds ++ t) := by
    refine applyPat_eq_self _ (drops_none_cons _ step3_headNotSymbol ?_ hrest_nosym)
    unfold step3 matchP3
    rw [matchSym_digitCands_eq p3AfterComma hc hsp hds hd hnd
      (fun x r hx => p3AfterComma_digit hx r), p3AfterComma_not_comma h3T]
    rfl
  have hstep4 : step4 (c :: (sp ++ ds ++ t)) =
      some ((if hasTextAfter t then c :: (ds ++ ' ' :: currencyWord c) else c :: ds), t) := by
    unfold step4 matchP4
    rw [matchSym_numCands_eq p4After hc hsp hds hd hnd hcT hoT
      (fun x r hx => p4After_digit hx r), h4T]
    rfl
  have e4 : applyPat step4 (c :: (sp ++ ds ++ t)) =
      (if hasTextAfter t then c :: (ds ++ ' ' :: currencyWord c) else c :: ds) ++ t :=
    applyPat_single step4 hstep4
      (drops_none_of_no_symbol step4 step4_headNotSymbol hsymT)
  unfold rewriteText
  rw [e0, e1, e2, e3, e4]
  refine stripMarks_id ?_
  intro hmem
  rcases List.mem_append.1 hmem with hmem | hmem
  · by_cases hta : hasTextAfter t = true
    · rw [if_pos hta] at hmem
      rcases List.mem_cons.1 hmem with h | hmem
      · exact symbol_ne_mark hc h.symm
      · rcases List.mem_append.1 hmem with hmem | hmem
        · exact absurd (hd MARK hmem) (by decide)
        · rcases List.mem_cons.1 hmem with h | hmem
          · exact absurd h (by decide)
          · exact mark_not_in_currencyWord hc hmem
    · rw [if_neg hta] at hmem
      rcases List.mem_cons.1 hmem with h | hmem
      · exact symbol_ne_mark hc h.symm
      · exact absurd (hd MARK hmem) (by decide)
  · exact hmkT hmem

lemma rewrite_family_nomatch {c : Char} {sp ds t : List Char}
    (hc : isSymbol c = true) (hsp : ∀ x ∈ sp, isJSSpace x = true)
    (hds : ds ≠ []) (hd : ∀ d ∈ ds, isDigitC d = true)
    (hnd : headNotDigit t = true)
    (hcT : commaCands t = [([], t)]) (hoT : optDecCands t = [([], t)])
    (h0T : p0After t = none) (h1T : p1After t = none) (h2T : p2After t = none)
    (h3T : t.head? ≠ some ',') (h4T : p4After t = none)
    (hsymT : ∀ x ∈ t, isSymbol x = false) (hmkT : MARK ∉ t) :
    rewriteText (c :: (sp ++ ds ++ t)) = c :: (sp ++ ds ++ t) := by
  have hrest_nosym : ∀ x ∈ sp ++ ds ++ t, isSymbol x = false := by
    intro x hx
    rcases List.mem_append.1 hx with hx | hx
    · rcases List.mem_append.1 hx with hx | hx
      · exact not_symbol_of_space (hsp x hx)
      · exact not_symbol_of_digit (hd x hx)
    · exact hsymT x hx
  have e0 : applyPat step0 (c :: (sp ++ ds ++ t)) = c :: (sp ++ ds ++ t) := by
    refine applyPat_eq_self _ (drops_none_cons _ step0_headNotSymbol ?_ hrest_nosym)
    unfold step0 matchP0
    rw [matchSym_numCands_eq p0After hc hsp hds hd hnd hcT hoT
      (fun x r hx => p0After_digit hx r), h0T]
    rfl
  have e1 : applyPat step1 (c :: (sp ++ ds ++ t)) = c :: (sp ++ ds ++ t) := by
    refine applyPat_eq_self _ (drops_none_cons _ step1_headNotSymbol ?_ hrest_nosym)
    unfold step1 matchP1
    rw [matchSym_numCands_eq p1After hc hsp hds hd hnd hcT hoT
      (fun x r hx => p1After_digit hx r), h1T]
    rfl
  have e2 : applyPat step2 (c :: (sp ++ ds ++ t)) = c :: (sp ++ ds ++ t) := by
    refine applyPat_eq_self _ (drops_none_cons _ step2_headNotSymbol ?_ hrest_nosym)
    unfold step2 matchP2
    rw [matchSym_numCands_eq p2After hc hsp hds hd hnd hcT hoT
      (fun x r hx => p2After_digit hx r), h2T]
    rfl
  have e3 : applyPat step3 (c :: (sp ++ ds ++ t)) = c :: (sp ++ ds ++ t) := by
    refine applyPat_eq_self _ (drops_none_cons _ step3_headNotSymbol ?_ hrest_nosym)
    unfold step3 matchP3
    rw [matchSym_digitCands_eq p3AfterComma hc hsp hds hd hnd
      (fun x r hx => p3AfterComma_digit hx r), p3AfterComma_not_comma h3T]
    rfl
  have e4 : applyPat step4 (c :: (sp ++ ds ++ t)) = c :: (sp ++ ds ++ t) := by
    refine applyPat_eq_self _ (drops_none_cons _ step4_headNotSymbol ?_ hrest_nosym)
    unfold step4 matchP4
    rw [matchSym_numCands_eq p4After hc hsp hds hd hnd hcT hoT
      (fun x r hx => p4After_digit hx r), h4T]
    rfl
  unfold rewriteText
  rw [e0, e1, e2, e3, e4]
  refine stripMarks_id ?_
  intro hmem
  rcases List.mem_cons.1 hmem with h | hmem
  · exact symbol_ne_mark hc h.symm
  · rcases List.mem_append.1 hmem with hmem | hmem
    · rcases List.mem_append.1 hmem with hmem | hmem
      · exact space_ne_mark (hsp MARK hmem) rfl
      · exact absurd (hd MARK hmem) (by decide)
    · exact hmkT hmem

lemma rewrite_annotated_fixed {c : Char} {ds : List Char} (hc : isSymbol c = true)
    (hds : ds ≠ []) (hd : ∀ d ∈ ds, isDigitC d = true) :
    rewriteText (c :: (ds ++ (' ' :: (currencyWord c ++ " is due".toList)))) =
      c :: (ds ++ (' ' :: (currencyWord c ++ " is due".toList))) := by
  rcases isSymbol_elim hc with rfl | rfl | rfl | rfl | rfl | rfl | rfl | rfl | rfl |
    rfl | rfl | rfl | rfl <;>
    exact @rewrite_family_nomatch _ [] ds _ hc (by decide) hds hd (by decide) (by decide)
      (by decide) (by decide) (by decide) (by decide) (by decide) (by decide) (by decide)
      (by decide)

/-! ### Claims -/

/-- C2 counterexample: the thousands rule does not keep the full grouped
integer.  On the spec instance the rewrite yields the truncated prefix 12 with
the currency word, and the grouped integer 12,345,678 does not occur in the
output. -/
theorem c2_counterexample :
    rewriteText "$12,345,678 total".toList = "$12 dollars total".toList ∧
    ¬ ("12,345,678".toList <:+: rewriteText "$12,345,678 total".toList) := by
  constructor
  · decide
  · decide

/-- C2 amended: for a thousands-separated amount the rewrite keeps only the
integer prefix before the first comma, dropping the grouped thousands and any
decimal remainder, and annotates that prefix once under the trailing-context
rule. -/
theorem c2_amended_truncated_prefix :
    rewriteText "$12,345,678 total".toList = "$12 dollars total".toList ∧
    rewriteText "€1,234,567.89 fee".toList = "€1 euros fee".toList ∧
    rewriteText "$12,345,678".toList = "$12".toList := by
  refine ⟨by decide, by decide, by decide⟩

/-- C4 counterexample: the magnitude-word rule does not keep the magnitude
word.  The rewrite of the spec instance drops the word million entirely. -/
theorem c4_counterexample :
    rewriteText "$5 million is due".toList = "$5 dollars is due".toList ∧
    ¬ ("million".toList <:+: rewriteText "$5 million is due".toList) := by
  constructor
  · decide
  · decide

/-- C4 amended: for each magnitude word, the matched magnitude word is removed
in both branches: with following alphanumeric text the match becomes
symbol-number-currency-word, and with none it becomes just symbol-number. -/
theorem c4_amended_magnitude_dropped (w : List Char) (hw : w ∈ magWords) :
    rewriteText ("$5 ".toList ++ w ++ " is due".toList) = "$5 dollars is due".toList ∧
    rewriteText ("$5 ".toList ++ w) = "$5".toList := by
  fin_cases hw <;> exact ⟨by decide, by decide⟩

/-- C4 witness: the amended statement instantiated at the word million. -/
theorem c4_witness :
    rewriteText ("$5 ".toList ++ "million".toList ++ " is due".toList) =
      "$5 dollars is due".toList ∧
    rewriteText ("$5 ".toList ++ "million".toList) = "$5".toList :=
  c4_amended_magnitude_dropped "million".toList (by decide)

/-- C5: on the spec instance the bn rule annotates via the sentinel, later
rules skip the marked amount, and the strip removes every sentinel: the output
contains the symbol-number pair, no currency word, and no sentinel. -/
theorem c5_bn_sentinel :
    rewriteText "$5bn is owed".toList = "$5 is owed".toList ∧
    ("$5".toList <:+: rewriteText "$5bn is owed".toList) ∧
    ¬ ("dollars".toList <:+: rewriteText "$5bn is owed".toList) ∧
    MARK ∉ rewriteText "$5bn is owed".toList := by
  refine ⟨by decide, by decide, by decide, by decide⟩

/-- C1 counterexample: the rewrite is not idempotent.  The sentinel of the bn
rule is stripped from the output, so a second pass sees a bare amount followed
by meaningful text and appends a currency word. -/
theorem c1_counterexample :
    rewriteText (rewriteText "$5bn is owed".toList) ≠
      rewriteText "$5bn is owed".toList := by
  decide

/-- C1 amended: idempotence holds on the generic-annotated family: for every
supported symbol and every digit string, the inputs of the shape
symbol-space-number followed by further words reach a fixed point after one
application (the appended currency word blocks the generic rule on the second
pass); idempotence fails only when the first pass consumed a sentinel-marked
magnitude abbreviation. -/
theorem c1_amended_idempotent_generic (c : Char) (ds : List Char)
    (hc : isSymbol c = true) (hds : ds ≠ []) (hd : ∀ d ∈ ds, isDigitC d = true) :
    rewriteText (rewriteText (c :: ' ' :: (ds ++ " is due".toList))) =
      rewriteText (c :: ' ' :: (ds ++ " is due".toList)) := by
  have h1 := @rewrite_family_match c [' '] ds (" is due".toList) hc (by decide) hds hd
    (by decide) (by decide) (by decide) (by decide) (by decide) (by decide) (by decide)
    (by decide) (by decide) (by decide)
  rw [show hasTextAfter " is due".toList = true from by decide,
    if_pos (show (true : Bool) = true from rfl)] at h1
  have h2 := rewrite_annotated_fixed hc hds hd
  have hshape : (c :: ([' '] ++ ds ++ " is due".toList)) =
      c :: ' ' :: (ds ++ " is due".toList) := by simp
  rw [hshape] at h1
  rw [h1]
  have hshape2 : (c :: (ds ++ ' ' :: currencyWord c)) ++ " is due".toList =
      c :: (ds ++ (' ' :: (currencyWord c ++ " is due".toList))) := by simp
  rw [hshape2]
  exact h2

/-- C1 witness: the amended idempotence applied at the dollar symbol and the
digit string 5. -/
theorem c1_witness :
    rewriteText (rewriteText ('$' :: ' ' :: ("5".toList ++ " is due".toList))) =
      rewriteText ('$' :: ' ' :: ("5".toList ++ " is due".toList)) :=
  c1_amended_idempotent_generic '$' "5".toList (by decide) (by decide) (by decide)

/-- C3: the trailing-context rule of the generic bare-amount pattern, for every
supported symbol and digit string, and every trailing context drawn from the
Basic Latin and Latin-1 blocks (the alphabet on which the embedded letter-or-
number class of hasMeaningfulTextAfter is exact) that no earlier rule can
extend into (the remaining hypotheses state exactly that): when the context
has no letter or number the amount is left un-annotated, and when it has
meaningful text the currency word of the symbol is appended. -/
theorem c3_generic_trailing_context (c : Char) (ds t : List Char)
    (hc : isSymbol c = true) (hds : ds ≠ []) (hd : ∀ d ∈ ds, isDigitC d = true)
    (_hlat : ∀ x ∈ t, x.toNat ≤ 0xff)
    (hnd : headNotDigit t = true)
    (hcT : commaCands t = [([], t)]) (hoT : optDecCands t = [([], t)])
    (h0T : p0After t = none) (h1T : p1After t = none) (h2T : p2After t = none)
    (h3T : t.head? ≠ some ',') (h4T : p4After t = some t)
    (hsymT : ∀ x ∈ t, isSymbol x = false) (hmkT : MARK ∉ t) :
    (hasTextAfter t = false →
      rewriteText (c :: ' ' :: (ds ++ t)) = (c :: ds) ++ t) ∧
    (hasTextAfter t = true →
      rewriteText (c :: ' ' :: (ds ++ t)) = (c :: (ds ++ ' ' :: currencyWord c)) ++ t) := by
  have h := @rewrite_family_match c [' '] ds t hc (by decide) hds hd hnd hcT hoT h0T h1T
    h2T h3T h4T hsymT hmkT
  have hshape : (c :: ([' '] ++ ds ++ t)) = c :: ' ' :: (ds ++ t) := by simp
  rw [hshape] at h
  constructor
  · intro hta
    rw [hta, if_neg (show ¬((false : Bool) = true) from by decide)] at h
    exact h
  · intro hta
    rw [hta, if_pos (show (true : Bool) = true from rfl)] at h
    exact h

/-- C3 witness: the trailing-context rule applied at a line-final context (a
dot: no annotation) and at a mid-sentence context (currency word appended). -/
theorem c3_witness :
    rewriteText "$ 5.".toList = "$5.".toList ∧
    rewriteText "€ 72 is due".toList = "€72 euros is due".toList := by
  constructor
  · exact (c3_generic_trailing_context '$' "5".toList ".".toList (by decide) (by decide)
      (by decide) (by decide) (by decide) (by decide) (by decide) (by decide) (by decide)
      (by decide) (by decide) (by decide) (by decide) (by decide)).1 (by decide)
  · exact (c3_generic_trailing_context '€' "72".toList " is due".toList (by decide)
      (by decide) (by decide) (by decide) (by decide) (by decide) (by decide) (by decide)
      (by decide) (by decide) (by decide) (by decide) (by decide) (by decide)).2 (by decide)

/-- C6: eligibility is exactly the conjunction of the enable gate, nonempty
trimmed text, a currency symbol, and not being in a skipped context (no parent,
an editable parent, or a closest ancestor in the skip set); an ineligible node
is never enqueued and its text is never modified. -/
theorem c6_eligibility (enabled : Bool) (n : TextNode) (q : List TextNode) :
    (shouldProcessTextNode enabled n = true ↔
      (enabled = true ∧ n.text.all isJSSpace = false ∧ n.text.any isSymbol = true ∧
        isInSkippedContext n = false)) ∧
    (∀ el rest2, n.ancestors = el :: rest2 →
      (isInSkippedContext n = false ↔
        (el.isContentEditable = false ∧ n.ancestors.any matchesSkipSelector = false))) ∧
    (shouldProcessTextNode enabled n = false →
      enqueueTextNode enabled q n = q ∧ processTextNode enabled n = n.text) := by
  refine ⟨?_, ?_, ?_⟩
  · unfold shouldProcessTextNode
    cases enabled <;> cases h1 : n.text.all isJSSpace <;>
      cases h2 : n.text.any isSymbol <;> cases h3 : isInSkippedContext n <;> simp
  · intro el rest2 hanc
    unfold isInSkippedContext
    rw [hanc]
    simp
  · intro hf
    constructor
    · unfold enqueueTextNode
      rw [hf]
      rfl
    · unfold processTextNode
      rw [hf]
      rfl

/-- C6 witness: a node with currency text whose ancestor chain contains a code
element is ineligible, is not enqueued, and keeps its text. -/
theorem c6_witness :
    shouldProcessTextNode true nodeInCode = false ∧
    enqueueTextNode true [] nodeInCode = [] ∧
    processTextNode true nodeInCode = nodeInCode.text := by
  have h := c6_eligibility true nodeInCode []
  have hf : shouldProcessTextNode true nodeInCode = false := by decide
  exact ⟨hf, (h.2.2 hf).1, (h.2.2 hf).2⟩

/-- C7: the startup storage read disables the gate when the read fails, and
enables it when the read succeeds with the value absent; with the gate
disabled an otherwise eligible node is neither enqueued nor modified, and with
the absent-value default it is eligible. -/
theorem c7_storage_gate :
    checkState .failure = false ∧
    checkState (.ok none) = true ∧
    processTextNode (checkState .failure) nodePlain = nodePlain.text ∧
    enqueueTextNode (checkState .failure) [] nodePlain = [] ∧
    shouldProcessTextNode (checkState (.ok none)) nodePlain = true := by
  refine ⟨rfl, rfl, rfl, rfl, by decide⟩

/-- C8: a queued node is skipped when detached or when its current text equals
the cached last-produced text, and the queue is cleared unconditionally after
the loop. -/
theorem c8_flush_guard (enabled : Bool) (cache : Nat → Option (List Char))
    (q : QNode) (queue : List QNode) :
    (q.connected = false → flushVisit enabled cache q = (cache, q)) ∧
    (cache q.id = some q.node.text → flushVisit enabled cache q = (cache, q)) ∧
    (flushCallback enabled cache queue).2 = [] := by
  refine ⟨?_, ?_, rfl⟩
  · intro h
    unfold flushVisit
    rw [h]
    rfl
  · intro h
    unfold flushVisit
    cases hc2 : q.connected <;> simp [h]

/-- C8 witness: the guard applied to a detached node with the empty cache. -/
theorem c8_witness :
    flushVisit true emptyCache detachedQ = (emptyCache, detachedQ) ∧
    (flushCallback true emptyCache [detachedQ]).2 = [] := by
  have h := c8_flush_guard true emptyCache detachedQ [detachedQ]
  exact ⟨h.1 rfl, h.2.2⟩

/-- C9 counterexample: the flush loop has no per-node handler, so with a
visitor that throws on the middle node, the node queued after it is returned
unvisited; without the throwing node in the queue every node is visited. -/
theorem c9_counterexample :
    (flushLoopE throwingVisit [qn 0 "$5 fee", qn 1 "$6 fee", qn 2 "$7 fee"]).2 =
      [qn 2 "$7 fee"] ∧
    (flushLoopE throwingVisit [qn 0 "$5 fee", qn 2 "$7 fee"]).2 = [] := by
  refine ⟨rfl, rfl⟩

/-- C9 amended: an exception raised while visiting one queued node propagates
out of the flush loop, so every node queued after it is left unvisited in that
flush. -/
theorem c9_amended_exception_aborts (visit : QNode → Except Unit QNode)
    (q : QNode) (rest : List QNode) (h : visit q = .error ()) :
    flushLoopE visit (q :: rest) = ([], rest) := by
  unfold flushLoopE
  rw [h]

/-- C9 witness: the amended statement instantiated at the throwing visitor. -/
theorem c9_witness :
    flushLoopE throwingVisit [qn 1 "$6 fee", qn 2 "$7 fee"] = ([], [qn 2 "$7 fee"]) :=
  c9_amended_exception_aborts throwingVisit (qn 1 "$6 fee") [qn 2 "$7 fee"] rfl

/-! ### padHundredths -/

lemma padKont_digit {p : List Char} {x : Char} {r : List Char}
    (hx : isDigitC x = true) : padKont (p, x :: r) = none := by
  unfold padKont
  split
  · next heq => exact absurd heq (by simp)
  · next ds heq =>
    have hxe : x = '.' := (List.cons.inj heq).1
    subst hxe
    exact absurd hx (by decide)
  · rfl

lemma padKont_comma {p r : List Char} : padKont (p, ',' :: r) = none := by
  unfold padKont
  split
  · next heq => exact absurd heq (by simp)
  · next ds heq =>
    have hxe : (',' : Char) = '.' := (List.cons.inj heq).1
    exact absurd hxe (by decide)
  · rfl

lemma commaCands_groups (gs : List (List Char)) {u : List Char}
    (hgs : ∀ g ∈ gs, g.length = 3 ∧ ∀ x ∈ g, isDigitC x = true)
    (hu : u.head? ≠ some ',') :
    ∃ tl, commaCands (gs.flatMap (fun g => ',' :: g) ++ u) =
      (gs.flatMap (fun g => ',' :: g), u) :: tl ∧
      ∀ pr ∈ tl, ∃ r, pr.2 = ',' :: r := by
  induction gs with
  | nil =>
    refine ⟨[], ?_, by simp⟩
    simpa using commaCands_not_comma hu
  | cons g gs ih =>
    obtain ⟨hg3, hgd⟩ := hgs g (by simp)
    rcases g with _ | ⟨a, g1⟩
    · simp at hg3
    rcases g1 with _ | ⟨b, g2⟩
    · simp at hg3
    rcases g2 with _ | ⟨c, g3⟩
    · simp at hg3
    have hg30 : g3 = [] := by
      have : g3.length = 0 := by simpa using hg3
      simpa using this
    subst hg30
    obtain ⟨tl, htl, hmem⟩ := ih (fun g2 hg2 => hgs g2 (by simp [hg2]))
    have ha : isDigitC a = true := hgd a (by simp)
    have hb : isDigitC b = true := hgd b (by simp)
    have hc : isDigitC c = true := hgd c (by simp)
    refine ⟨(tl.map fun pr => (',' :: a :: b :: c :: pr.1, pr.2)) ++
      [([], ',' :: a :: b :: c :: (gs.flatMap (fun g => ',' :: g) ++ u))], ?_, ?_⟩
    · have hshape : ([a, b, c] :: gs).flatMap (fun g => ',' :: g) ++ u =
          ',' :: a :: b :: c :: (gs.flatMap (fun g => ',' :: g) ++ u) := by simp
      rw [hshape, show commaCands (',' :: a :: b :: c ::
          (gs.flatMap (fun g => ',' :: g) ++ u)) =
        ((commaCands (gs.flatMap (fun g => ',' :: g) ++ u)).map fun pr =>
          (',' :: a :: b :: c :: pr.1, pr.2)) ++
          [([], ',' :: a :: b :: c :: (gs.flatMap (fun g => ',' :: g) ++ u))] from by
        rw [commaCands]
        simp [ha, hb, hc]]
      rw [htl]
      simp
    · intro pr hpr
      rcases List.mem_append.1 hpr with hpr | hpr
      · obtain ⟨pr0, hpr0, rfl⟩ := List.mem_map.1 hpr
        exact hmem pr0 hpr0
      · simp only [List.mem_singleton] at hpr
        subst hpr
        exact ⟨_, rfl⟩

lemma intCands_findSome? {α : Type} {d : List Char} {gs : List (List Char)} {u : List Char}
    (f : List Char × List Char → Option α)
    (hd0 : d ≠ []) (hdd : ∀ x ∈ d, isDigitC x = true)
    (hgs : ∀ g ∈ gs, g.length = 3 ∧ ∀ x ∈ g, isDigitC x = true)
    (hnd : headNotDigit u = true) (hnc : u.head? ≠ some ',')
    (hfd : ∀ p x r, isDigitC x = true → f (p, x :: r) = none)
    (hfc : ∀ p r, f (p, ',' :: r) = none) :
    (intCands (d ++ (gs.flatMap (fun g => ',' :: g) ++ u))).findSome? f =
      f (d ++ gs.flatMap (fun g => ',' :: g), u) := by
  unfold intCands
  rw [findSome?_flatMap]
  have hndr : headNotDigit (gs.flatMap (fun g => ',' :: g) ++ u) = true := by
    rcases gs with _ | ⟨g, gs⟩
    · simpa using hnd
    · rcases g with _ | ⟨a, g1⟩ <;> simp [headNotDigit] <;> decide
  obtain ⟨tl, htl, hmem⟩ := digitCands_structure _ hd0 hdd hndr
  rw [htl]
  have htail : ∀ y ∈ tl,
      ((commaCands y.2).map fun g2 => (y.1 ++ g2.1, g2.2)).findSome? f = none := by
    intro y hy
    obtain ⟨x, r, hx, h2⟩ := hmem y hy
    rw [h2, commaCands_digit hx]
    simp only [List.map_cons, List.map_nil]
    rw [List.findSome?_cons]
    have hnone := hfd (y.1 ++ []) x r hx
    simp only [List.append_nil] at hnone
    simp only [List.append_nil, hnone]
    rfl
  rw [findSome?_cons_tail_none htail]
  obtain ⟨tl2, htl2, hmem2⟩ := commaCands_groups gs hgs hnc
  simp only []
  rw [htl2]
  simp only [List.map_cons]
  rw [List.findSome?_cons]
  have htail2 : (tl2.map fun g2 => (d ++ g2.1, g2.2)).findSome? f = none := by
    refine findSome?_none ?_
    intro y hy
    obtain ⟨pr0, hpr0, rfl⟩ := List.mem_map.1 hy
    obtain ⟨r, hr⟩ := hmem2 pr0 hpr0
    rw [hr]
    exact hfc _ r
  cases hval : f (d ++ gs.flatMap (fun g => ',' :: g), u)
  · simpa using htail2
  · rfl

/-- C10: padHundredths of the src/content.js variant, on every amount shaped
like the NUM group (an integer with grouped thousands, optionally followed by
a decimal part): a one-digit decimal part gets a trailing zero appended, while
amounts with no decimal part or with two or more decimal digits are returned
unchanged; at the rewrite level, the dollar examples evaluate accordingly. -/
theorem c10_padHundredths (d : List Char) (gs : List (List Char)) (dec : List Char)
    (hd0 : d ≠ []) (hdd : ∀ x ∈ d, isDigitC x = true)
    (hgs : ∀ g ∈ gs, g.length = 3 ∧ ∀ x ∈ g, isDigitC x = true)
    (hdec : ∀ x ∈ dec, isDigitC x = true) :
    (padHundredths (d ++ gs.flatMap (fun g => ',' :: g)) =
      d ++ gs.flatMap (fun g => ',' :: g)) ∧
    (dec.length = 1 →
      padHundredths ((d ++ gs.flatMap (fun g => ',' :: g)) ++ '.' :: dec) =
        (d ++ gs.flatMap (fun g => ',' :: g)) ++ '.' :: dec ++ ['0']) ∧
    (2 ≤ dec.length →
      padHundredths ((d ++ gs.flatMap (fun g => ',' :: g)) ++ '.' :: dec) =
        (d ++ gs.flatMap (fun g => ',' :: g)) ++ '.' :: dec) ∧
    rewriteTextCJS "$5.5".toList = "$5.50".toList ∧
    rewriteTextCJS "$5.55".toList = "$5.55".toList ∧
    rewriteTextCJS "$5".toList = "$5".toList := by
  have hfd : ∀ (p : List Char) (x : Char) (r : List Char), isDigitC x = true →
      padKont (p, x :: r) = none := fun p x r hx => padKont_digit hx
  have hfc : ∀ (p r : List Char), padKont (p, ',' :: r) = none := fun p r => padKont_comma
  refine ⟨?_, ?_, ?_, by decide, by decide, by decide⟩
  · unfold padHundredths
    have hfs := @intCands_findSome? _ d gs [] padKont hd0 hdd hgs rfl (by simp) hfd hfc
    rw [List.append_nil] at hfs
    rw [hfs]
    rfl
  · intro hlen
    unfold padHundredths
    have hfs := @intCands_findSome? _ d gs ('.' :: dec) padKont hd0 hdd hgs rfl
      (by simp) hfd hfc
    rw [← List.append_assoc] at hfs
    rw [hfs]
    have hcond : (!dec.isEmpty && dec.all isDigitC) = true := by
      rcases dec with _ | ⟨x, dec⟩
      · simp at hlen
      · simp only [List.isEmpty_cons, Bool.not_false, Bool.true_and, List.all_eq_true]
        exact fun y hy => hdec y hy
    rw [show padKont (d ++ gs.flatMap (fun g => ',' :: g), '.' :: dec) =
        some (d ++ gs.flatMap (fun g => ',' :: g), dec) from by
      unfold padKont
      simp [hcond]]
    simp [hlen]
  · intro hlen
    unfold padHundredths
    have hfs := @intCands_findSome? _ d gs ('.' :: dec) padKont hd0 hdd hgs rfl
      (by simp) hfd hfc
    rw [← List.append_assoc] at hfs
    rw [hfs]
    have hcond : (!dec.isEmpty && dec.all isDigitC) = true := by
      rcases dec with _ | ⟨x, dec⟩
      · simp at hlen
      · simp only [List.isEmpty_cons, Bool.not_false, Bool.true_and, List.all_eq_true]
        exact fun y hy => hdec y hy
    rw [show padKont (d ++ gs.flatMap (fun g => ',' :: g), '.' :: dec) =
        some (d ++ gs.flatMap (fun g => ',' :: g), dec) from by
      unfold padKont
      simp [hcond]]
    have hne : ¬(dec.length = 1) := by omega
    simp [hne]

/-- C10 witness: padHundredths applied at a one-digit decimal (5.5 becomes
5.50), a two-digit decimal, and a grouped integer without decimals. -/
theorem c10_witness :
    padHundredths ("5".toList ++ ([] : List (List Char)).flatMap (fun g => ',' :: g) ++
      '.' :: "5".toList) = "5.50".toList ∧
    padHundredths ("5".toList ++ ([] : List (List Char)).flatMap (fun g => ',' :: g) ++
      '.' :: "55".toList) = "5.55".toList ∧
    padHundredths ("1".toList ++ ["234".toList].flatMap (fun g => ',' :: g)) =
      "1,234".toList := by
  refine ⟨?_, ?_, ?_⟩
  · exact ((c10_padHundredths "5".toList [] "5".toList (by decide) (by decide) (by simp)
      (by decide)).2.1 (by decide)).trans (by decide)
  · exact ((c10_padHundredths "5".toList [] "55".toList (by decide) (by decide) (by simp)
      (by decide)).2.2.1 (by decide)).trans (by decide)
  · exact ((c10_padHundredths "1".toList ["234".toList] [] (by decide) (by decide)
      (by decide) (by decide)).1).trans (by decide)

end MoneyDollar
